import Mathlib

/-!
Shallow embedding of the spice-organizer core logic (`SpiceLogic` class of the
repository) and proofs about it.

Modelling conventions:
* JavaScript strings are modelled as `List Char` (`JStr`).  String methods used
  by the source (`trim`, `split(/\s+/)`, `split('-')`, `toUpperCase`,
  `toLowerCase`, `indexOf`, `includes`, `startsWith`, `endsWith`, `charAt`,
  `slice`) are modelled character-wise; `toUpperCase`/`toLowerCase` are
  modelled on the ASCII letters, which are the only characters the logic
  distinguishes.
* JavaScript numbers appearing as jar counts, lengths and indices are `ℕ`
  (they are non-negative integers in every reachable computation); array
  indices that the source compares against the `-1` sentinel of `indexOf` are
  `ℤ`; fuzzy-search scores, which use division, are `ℚ`.
* A JavaScript object used as a map (`letterCounts`) is an insertion-ordered
  association list; assignment updates in place or appends a new key, exactly
  like a JS object.
* Methods that read but never assign any field of the class are embedded as
  pure functions of the state; methods that mutate return the new state.
  Persistence, networking and `localStorage` concerns of the class perform
  I/O only and are outside the embedded core.
-/

/-- JavaScript string, as a list of characters. -/
abbrev JStr := List Char

/-- ASCII lower-to-upper pairs, the character table behind `toUpperCase`. -/
def upPairs : List (Char × Char) :=
  [('a','A'),('b','B'),('c','C'),('d','D'),('e','E'),('f','F'),('g','G'),
   ('h','H'),('i','I'),('j','J'),('k','K'),('l','L'),('m','M'),('n','N'),
   ('o','O'),('p','P'),('q','Q'),('r','R'),('s','S'),('t','T'),('u','U'),
   ('v','V'),('w','W'),('x','X'),('y','Y'),('z','Z')]

/-- ASCII upper-to-lower pairs, the character table behind `toLowerCase`. -/
def downPairs : List (Char × Char) :=
  [('A','a'),('B','b'),('C','c'),('D','d'),('E','e'),('F','f'),('G','g'),
   ('H','h'),('I','i'),('J','j'),('K','k'),('L','l'),('M','m'),('N','n'),
   ('O','o'),('P','p'),('Q','q'),('R','r'),('S','s'),('T','t'),('U','u'),
   ('V','v'),('W','w'),('X','x'),('Y','y'),('Z','z')]

/-- Association-list lookup with `=`, mirroring JS property access. -/
def lookupPair {β : Type} : List (Char × β) → Char → Option β
  | [], _ => none
  | (k, v) :: rest, c => if k = c then some v else lookupPair rest c

/-- `toUpperCase` on a single character (ASCII model). -/
def upChar (c : Char) : Char := (lookupPair upPairs c).getD c

/-- `toLowerCase` on a single character (ASCII model). -/
def downChar (c : Char) : Char := (lookupPair downPairs c).getD c

theorem lookupPair_some_mem {β : Type} :
    ∀ (l : List (Char × β)) (c : Char) (b : β),
      lookupPair l c = some b → (c, b) ∈ l := by
  intro l
  induction l with
  | nil => intro c b h; simp [lookupPair] at h
  | cons p rest ih =>
    intro c b h
    obtain ⟨k, v⟩ := p
    by_cases hk : k = c
    · subst hk
      simp [lookupPair] at h
      simp [h]
    · simp [lookupPair, hk] at h
      exact List.mem_cons_of_mem _ (ih c b h)

theorem upChar_upChar (c : Char) : upChar (upChar c) = upChar c := by
  unfold upChar
  rcases h : lookupPair upPairs c with _ | u
  · simp [h]
  · simp only [h, Option.getD_some]
    exact (by decide : ∀ p ∈ upPairs, (lookupPair upPairs p.2).getD p.2 = p.2)
      (c, u) (lookupPair_some_mem upPairs c u h)

theorem downChar_downChar (c : Char) : downChar (downChar c) = downChar c := by
  unfold downChar
  rcases h : lookupPair downPairs c with _ | u
  · simp [h]
  · simp only [h, Option.getD_some]
    exact (by decide :
        ∀ p ∈ downPairs, (lookupPair downPairs p.2).getD p.2 = p.2)
      (c, u) (lookupPair_some_mem downPairs c u h)

theorem upChar_downChar (c : Char) : upChar (downChar c) = upChar c := by
  unfold downChar
  rcases h : lookupPair downPairs c with _ | u
  · simp [h]
  · simp only [h, Option.getD_some]
    exact (by decide : ∀ p ∈ downPairs, upChar p.2 = upChar p.1)
      (c, u) (lookupPair_some_mem downPairs c u h)

theorem downChar_upChar (c : Char) : downChar (upChar c) = downChar c := by
  unfold upChar
  rcases h : lookupPair upPairs c with _ | u
  · simp [h]
  · simp only [h, Option.getD_some]
    exact (by decide : ∀ p ∈ upPairs, downChar p.2 = downChar p.1)
      (c, u) (lookupPair_some_mem upPairs c u h)

/-- Whitespace class of the regular expression `\s` (ASCII part). -/
def isWs (c : Char) : Bool :=
  c = ' ' ∨ c = '\t' ∨ c = '\n' ∨ c = '\r' ∨ c = '\x0b' ∨ c = '\x0c'

theorem isWs_upChar (c : Char) : isWs (upChar c) = isWs c := by
  unfold upChar
  rcases h : lookupPair upPairs c with _ | u
  · simp [h]
  · simp only [h, Option.getD_some]
    exact (by decide : ∀ p ∈ upPairs, isWs p.2 = isWs p.1)
      (c, u) (lookupPair_some_mem upPairs c u h)

theorem isWs_downChar (c : Char) : isWs (downChar c) = isWs c := by
  unfold downChar
  rcases h : lookupPair downPairs c with _ | u
  · simp [h]
  · simp only [h, Option.getD_some]
    exact (by decide : ∀ p ∈ downPairs, isWs p.2 = isWs p.1)
      (c, u) (lookupPair_some_mem downPairs c u h)

/-- JS `String.prototype.trim`: strip leading and trailing whitespace. -/
def jsTrim (l : JStr) : JStr :=
  (((l.dropWhile isWs).reverse.dropWhile isWs)).reverse

/-- Accumulator-based splitter behind `split(/\s+/)`: maximal whitespace runs
separate the chunks, and no empty chunk is produced.  (The source only ever
splits trimmed strings, or filters out empty terms afterwards, so this is the
behaviour it relies on.) -/
def splitWsAux : JStr → JStr → List JStr
  | [], acc => if acc = [] then [] else [acc.reverse]
  | c :: rest, acc =>
    if isWs c then
      if acc = [] then splitWsAux rest []
      else acc.reverse :: splitWsAux rest []
    else splitWsAux rest (c :: acc)

/-- JS `split(/\s+/)` on a trimmed string (equivalently, with empty chunks
filtered out). -/
def splitWs (l : JStr) : List JStr := splitWsAux l []

/-- JS `Array.prototype.join(' ')`. -/
def joinSep : List JStr → JStr
  | [] => []
  | [w] => w
  | w :: v :: rest => w ++ ' ' :: joinSep (v :: rest)

/-- JS `Array.prototype.map((x, idx) => ...)`, with the running index made
explicit. -/
def mapIdxJ {α β : Type} (f : ℕ → α → β) : ℕ → List α → List β
  | _, [] => []
  | i, a :: rest => f i a :: mapIdxJ f (i + 1) rest

/-- Known abbreviations of `properlyCapitalizeName`. -/
def knownAbbreviations : List JStr :=
  [['B','B','Q'], ['M','S','G'], ['C','B','D']]

/-- Lowercase connector words of `properlyCapitalizeName`. -/
def lowercaseConnectors : List JStr :=
  [['a','n','d'], ['o','r'], ['t','h','e'], ['i','n'], ['o','f'],
   ['w','i','t','h'], ['f','o','r']]

/-- Per-word transformation of `properlyCapitalizeName` (the body of the
`.map((word, index) => ...)`). -/
def capWord (index : ℕ) (word : JStr) : JStr :=
  if word = [] then []
  else if word.map upChar ∈ knownAbbreviations then word.map upChar
  else if 0 < index ∧ word.map downChar ∈ lowercaseConnectors then
    word.map downChar
  else
    match word with
    | [] => []
    | c :: rest => upChar c :: rest.map downChar

/-- `SpiceLogic.properlyCapitalizeName`: trim, split on whitespace, map
`capWord` over the words with their indices, join with single spaces. -/
def properlyCapitalizeName (name : JStr) : JStr :=
  if name = [] then []
  else
    let trimmed := jsTrim name
    if trimmed = [] then []
    else joinSep (mapIdxJ capWord 0 (splitWs trimmed))

theorem splitWsAux_chunks :
    ∀ (l : JStr) (acc : JStr), (∀ c ∈ acc, isWs c = false) →
      ∀ w ∈ splitWsAux l acc, w ≠ [] ∧ ∀ c ∈ w, isWs c = false := by
  intro l
  induction l with
  | nil =>
    intro acc hacc w hw
    by_cases h : acc = []
    · simp [splitWsAux, h] at hw
    · simp only [splitWsAux, if_neg h, List.mem_singleton] at hw
      subst hw
      refine ⟨by simpa using h, ?_⟩
      intro c hc
      exact hacc c (List.mem_reverse.mp hc)
  | cons c rest ih =>
    intro acc hacc w hw
    by_cases hc : isWs c
    · by_cases h : acc = []
      · simp only [splitWsAux, if_pos hc, if_pos h] at hw
        exact ih [] (by intro x hx; simp at hx) w hw
      · simp only [splitWsAux, if_pos hc, if_neg h, List.mem_cons] at hw
        rcases hw with hw | hw
        · subst hw
          refine ⟨by simpa using h, ?_⟩
          intro x hx
          exact hacc x (List.mem_reverse.mp hx)
        · exact ih [] (by intro x hx; simp at hx) w hw
    · simp only [splitWsAux, if_neg hc] at hw
      refine ih (c :: acc) ?_ w hw
      intro x hx
      rcases List.mem_cons.mp hx with hx | hx
      · subst hx; simpa using hc
      · exact hacc x hx

theorem splitWs_chunks (l : JStr) :
    ∀ w ∈ splitWs l, w ≠ [] ∧ ∀ c ∈ w, isWs c = false :=
  splitWsAux_chunks l [] (by intro c hc; simp at hc)

theorem splitWsAux_block :
    ∀ (w : JStr) (l : JStr) (acc : JStr), (∀ c ∈ w, isWs c = false) →
      splitWsAux (w ++ l) acc = splitWsAux l (w.reverse ++ acc) := by
  intro w
  induction w with
  | nil => intro l acc _; simp
  | cons c w' ih =>
    intro l acc hw
    have hc : isWs c = false := hw c (List.mem_cons_self c w')
    simp only [List.cons_append, splitWsAux, hc, Bool.false_eq_true,
      if_false, List.append_eq]
    rw [ih l (c :: acc) (by intro x hx; exact hw x (List.mem_cons_of_mem _ hx))]
    simp

theorem splitWs_joinSep :
    ∀ ws : List JStr, (∀ w ∈ ws, w ≠ [] ∧ ∀ c ∈ w, isWs c = false) →
      splitWs (joinSep ws) = ws := by
  intro ws
  induction ws with
  | nil => intro _; rfl
  | cons w rest ih =>
    intro h
    have hw := h w (List.mem_cons_self w rest)
    cases rest with
    | nil =>
      show splitWsAux (joinSep [w]) [] = [w]
      have : joinSep [w] = w ++ [] := by simp [joinSep]
      rw [this, splitWsAux_block w [] [] hw.2]
      simp [splitWsAux, hw.1]
    | cons v rest' =>
      show splitWsAux (w ++ ' ' :: joinSep (v :: rest')) [] = w :: v :: rest'
      rw [splitWsAux_block w _ [] hw.2]
      simp only [splitWsAux, (by decide : isWs ' ' = true), if_true,
        List.append_nil, List.reverse_reverse]
      rw [if_neg (by simp [hw.1])]
      have hrest := ih (by intro x hx; exact h x (List.mem_cons_of_mem _ hx))
      unfold splitWs at hrest
      rw [hrest]

theorem splitWsAux_allWs :
    ∀ (r : JStr) (acc : JStr), (∀ c ∈ r, isWs c = true) →
      splitWsAux r acc = splitWsAux [] acc := by
  intro r
  induction r with
  | nil => intro acc _; rfl
  | cons c r' ih =>
    intro acc hr
    have hc : isWs c = true := hr c (List.mem_cons_self c r')
    by_cases h : acc = []
    · simp only [splitWsAux, hc, if_true, if_pos h]
      rw [ih [] (by intro x hx; exact hr x (List.mem_cons_of_mem _ hx))]
      simp [splitWsAux, h]
    · simp only [splitWsAux, hc, if_true, if_neg h]
      rw [ih [] (by intro x hx; exact hr x (List.mem_cons_of_mem _ hx))]
      simp [splitWsAux, h]

theorem splitWsAux_append_ws :
    ∀ (l : JStr) (acc : JStr) (r : JStr), (∀ c ∈ r, isWs c = true) →
      splitWsAux (l ++ r) acc = splitWsAux l acc := by
  intro l
  induction l with
  | nil => intro acc r hr; simpa using splitWsAux_allWs r acc hr
  | cons c l' ih =>
    intro acc r hr
    by_cases hc : isWs c
    · by_cases h : acc = []
      · simp only [List.cons_append, splitWsAux, if_pos hc, if_pos h,
          List.append_eq]
        exact ih [] r hr
      · simp only [List.cons_append, splitWsAux, if_pos hc, if_neg h,
          List.append_eq]
        rw [ih [] r hr]
    · simp only [List.cons_append, splitWsAux, if_neg hc, List.append_eq]
      exact ih (c :: acc) r hr

theorem splitWsAux_dropLead :
    ∀ l : JStr, splitWsAux (l.dropWhile isWs) [] = splitWsAux l [] := by
  intro l
  induction l with
  | nil => rfl
  | cons c rest ih =>
    by_cases hc : isWs c
    · rw [List.dropWhile_cons_of_pos (by simpa using hc)]
      rw [ih]
      simp [splitWsAux, hc]
    · rw [List.dropWhile_cons_of_neg (by simpa using hc)]

theorem splitWs_jsTrim (l : JStr) : splitWs (jsTrim l) = splitWs l := by
  unfold splitWs jsTrim
  set m := l.dropWhile isWs with hm
  have hdecomp : m = (m.reverse.dropWhile isWs).reverse ++
      (m.reverse.takeWhile isWs).reverse := by
    have := List.takeWhile_append_dropWhile (p := isWs) (l := m.reverse)
    calc m = m.reverse.reverse := by simp
    _ = (m.reverse.takeWhile isWs ++ m.reverse.dropWhile isWs).reverse := by
          rw [this]
    _ = _ := by rw [List.reverse_append]
  have hws : ∀ c ∈ (m.reverse.takeWhile isWs).reverse, isWs c = true := by
    intro c hc
    exact List.mem_takeWhile_imp (List.mem_reverse.mp hc)
  calc splitWsAux (m.reverse.dropWhile isWs).reverse []
      = splitWsAux ((m.reverse.dropWhile isWs).reverse ++
          (m.reverse.takeWhile isWs).reverse) [] := by
        rw [splitWsAux_append_ws _ [] _ hws]
    _ = splitWsAux m [] := by rw [← hdecomp]
    _ = splitWsAux l [] := splitWsAux_dropLead l

theorem mapIdxJ_mem {α β : Type} (f : ℕ → α → β) :
    ∀ (i : ℕ) (l : List α) (b : β), b ∈ mapIdxJ f i l →
      ∃ j a, a ∈ l ∧ b = f j a := by
  intro i l
  induction l generalizing i with
  | nil => intro b hb; simp [mapIdxJ] at hb
  | cons a rest ih =>
    intro b hb
    rcases List.mem_cons.mp hb with hb | hb
    · exact ⟨i, a, List.mem_cons_self a rest, hb⟩
    · obtain ⟨j, x, hx, hfx⟩ := ih (i + 1) b hb
      exact ⟨j, x, List.mem_cons_of_mem _ hx, hfx⟩

theorem mapIdxJ_idem {α : Type} (f : ℕ → α → α)
    (hf : ∀ j a, f j (f j a) = f j a) :
    ∀ (i : ℕ) (l : List α), mapIdxJ f i (mapIdxJ f i l) = mapIdxJ f i l := by
  intro i l
  induction l generalizing i with
  | nil => rfl
  | cons a rest ih => simp [mapIdxJ, hf, ih]

theorem map_upChar_capWord (i : ℕ) (w : JStr) :
    (capWord i w).map upChar = w.map upChar := by
  unfold capWord
  by_cases h0 : w = []
  · simp [h0]
  · rw [if_neg h0]
    by_cases h1 : w.map upChar ∈ knownAbbreviations
    · rw [if_pos h1]
      simp [Function.comp_def, upChar_upChar]
    · rw [if_neg h1]
      by_cases h2 : 0 < i ∧ w.map downChar ∈ lowercaseConnectors
      · rw [if_pos h2]
        simp [Function.comp_def, upChar_downChar]
      · rw [if_neg h2]
        cases w with
        | nil => simp at h0
        | cons c rest =>
          simp [Function.comp_def, upChar_upChar, upChar_downChar]

theorem map_downChar_capWord (i : ℕ) (w : JStr) :
    (capWord i w).map downChar = w.map downChar := by
  unfold capWord
  by_cases h0 : w = []
  · simp [h0]
  · rw [if_neg h0]
    by_cases h1 : w.map upChar ∈ knownAbbreviations
    · rw [if_pos h1]
      simp [Function.comp_def, downChar_upChar]
    · rw [if_neg h1]
      by_cases h2 : 0 < i ∧ w.map downChar ∈ lowercaseConnectors
      · rw [if_pos h2]
        simp [Function.comp_def, downChar_downChar]
      · rw [if_neg h2]
        cases w with
        | nil => simp at h0
        | cons c rest =>
          simp [Function.comp_def, downChar_downChar, downChar_upChar]

theorem capWord_good (i : ℕ) (w : JStr) (hne : w ≠ [])
    (hws : ∀ c ∈ w, isWs c = false) :
    capWord i w ≠ [] ∧ ∀ c ∈ capWord i w, isWs c = false := by
  unfold capWord
  rw [if_neg hne]
  by_cases h1 : w.map upChar ∈ knownAbbreviations
  · rw [if_pos h1]
    constructor
    · simpa using hne
    · intro c hc
      obtain ⟨d, hd, rfl⟩ := List.mem_map.mp hc
      rw [isWs_upChar]
      exact hws d hd
  · rw [if_neg h1]
    by_cases h2 : 0 < i ∧ w.map downChar ∈ lowercaseConnectors
    · rw [if_pos h2]
      constructor
      · simpa using hne
      · intro c hc
        obtain ⟨d, hd, rfl⟩ := List.mem_map.mp hc
        rw [isWs_downChar]
        exact hws d hd
    · rw [if_neg h2]
      cases w with
      | nil => simp at hne
      | cons c rest =>
        constructor
        · simp
        · intro x hx
          rcases List.mem_cons.mp hx with hx | hx
          · subst hx
            rw [isWs_upChar]
            exact hws c (List.mem_cons_self c rest)
          · obtain ⟨d, hd, rfl⟩ := List.mem_map.mp hx
            rw [isWs_downChar]
            exact hws d (List.mem_cons_of_mem _ hd)

theorem capWord_idem (i : ℕ) (w : JStr) :
    capWord i (capWord i w) = capWord i w := by
  by_cases h0 : w = []
  · simp [h0, capWord]
  · have hup := map_upChar_capWord i w
    have hdown := map_downChar_capWord i w
    unfold capWord at hup hdown
    rw [if_neg h0] at hup hdown
    by_cases h1 : w.map upChar ∈ knownAbbreviations
    · rw [if_pos h1] at hup hdown
      have hw' : capWord i w = w.map upChar := by
        unfold capWord; rw [if_neg h0, if_pos h1]
      rw [hw']
      have hne' : w.map upChar ≠ [] := by simpa using h0
      unfold capWord
      rw [if_neg hne']
      rw [if_pos (by rwa [show (w.map upChar).map upChar = w.map upChar by
        simp [Function.comp_def, upChar_upChar]])]
      simp [Function.comp_def, upChar_upChar]
    · rw [if_neg h1] at hup hdown
      by_cases h2 : 0 < i ∧ w.map downChar ∈ lowercaseConnectors
      · rw [if_pos h2] at hup hdown
        have hw' : capWord i w = w.map downChar := by
          unfold capWord; rw [if_neg h0, if_neg h1, if_pos h2]
        rw [hw']
        have hne' : w.map downChar ≠ [] := by simpa using h0
        unfold capWord
        rw [if_neg hne']
        rw [if_neg (by
          rw [show (w.map downChar).map upChar = w.map upChar by
            simp [Function.comp_def, upChar_downChar]]
          exact h1)]
        rw [if_pos (by
          refine ⟨h2.1, ?_⟩
          rw [show (w.map downChar).map downChar = w.map downChar by
            simp [Function.comp_def, downChar_downChar]]
          exact h2.2)]
        simp [Function.comp_def, downChar_downChar]
      · rw [if_neg h2] at hup hdown
        cases w with
        | nil => simp at h0
        | cons c rest =>
          have hw' : capWord i (c :: rest) = upChar c :: rest.map downChar := by
            unfold capWord; rw [if_neg h0, if_neg h1, if_neg h2]
          rw [hw']
          unfold capWord
          rw [if_neg (by simp)]
          rw [if_neg (by
            rw [show (upChar c :: rest.map downChar).map upChar =
              (c :: rest).map upChar by
              simp [Function.comp_def, upChar_upChar, upChar_downChar]]
            exact h1)]
          rw [if_neg (by
            rw [show (upChar c :: rest.map downChar).map downChar =
              (c :: rest).map downChar by
              simp [Function.comp_def, downChar_upChar, downChar_downChar]]
            exact h2)]
          simp [Function.comp_def, upChar_upChar, downChar_downChar]

/-- Claim C10: the name-normalization function `properlyCapitalizeName` is
idempotent: applying it twice yields the same result as applying it once. -/
theorem properlyCapitalizeName_idem (name : JStr) :
    properlyCapitalizeName (properlyCapitalizeName name) =
      properlyCapitalizeName name := by
  by_cases h0 : name = []
  · simp [properlyCapitalizeName, h0]
  · by_cases h1 : jsTrim name = []
    · simp [properlyCapitalizeName, h0, h1]
    · have hout : properlyCapitalizeName name =
        joinSep (mapIdxJ capWord 0 (splitWs (jsTrim name))) := by
        unfold properlyCapitalizeName
        rw [if_neg h0]
        simp only []
        rw [if_neg h1]
      set ws := splitWs (jsTrim name) with hws
      set ws' := mapIdxJ capWord 0 ws with hws'
      have hgood : ∀ w ∈ ws, w ≠ [] ∧ ∀ c ∈ w, isWs c = false :=
        splitWs_chunks (jsTrim name)
      have hgood' : ∀ w ∈ ws', w ≠ [] ∧ ∀ c ∈ w, isWs c = false := by
        intro w hw
        obtain ⟨j, x, hx, rfl⟩ := mapIdxJ_mem capWord 0 ws w hw
        exact capWord_good j x (hgood x hx).1 (hgood x hx).2
      have hsplit : splitWs (joinSep ws') = ws' := splitWs_joinSep ws' hgood'
      rw [hout]
      by_cases h2 : joinSep ws' = []
      · rw [h2]
        simp [properlyCapitalizeName]
      · have h3 : jsTrim (joinSep ws') ≠ [] := by
          intro hcontra
          have : splitWs (joinSep ws') = [] := by
            rw [← splitWs_jsTrim, hcontra]
            rfl
          rw [hsplit] at this
          exact h2 (by rw [this]; rfl)
        unfold properlyCapitalizeName
        rw [if_neg h2]
        simp only []
        rw [if_neg h3]
        rw [splitWs_jsTrim, hsplit, hws']
        rw [mapIdxJ_idem capWord capWord_idem]

/-- Generic association-list lookup, mirroring JS object property read. -/
def lookupKey {α β : Type} [DecidableEq α] : List (α × β) → α → Option β
  | [], _ => none
  | (k, v) :: rest, a => if k = a then some v else lookupKey rest a

/-- JS object property assignment: update an existing key in place, or append
a new key at the end (JS objects preserve insertion order). -/
def setKey {α β : Type} [DecidableEq α] : List (α × β) → α → β → List (α × β)
  | [], k, v => [(k, v)]
  | (k', v') :: rest, k, v =>
    if k' = k then (k', v) :: rest else (k', v') :: setKey rest k v

theorem lookupKey_setKey_self {α β : Type} [DecidableEq α] :
    ∀ (m : List (α × β)) (k : α) (v : β),
      lookupKey (setKey m k v) k = some v := by
  intro m
  induction m with
  | nil => intro k v; simp [setKey, lookupKey]
  | cons p rest ih =>
    intro k v
    obtain ⟨k', v'⟩ := p
    by_cases h : k' = k
    · simp [setKey, h, lookupKey]
    · simp [setKey, h, lookupKey, ih]

theorem lookupKey_setKey_ne {α β : Type} [DecidableEq α] :
    ∀ (m : List (α × β)) (k a : α) (v : β), a ≠ k →
      lookupKey (setKey m k v) a = lookupKey m a := by
  intro m
  induction m with
  | nil =>
    intro k a v hne
    simp only [setKey, lookupKey]
    rw [if_neg (fun h => hne h.symm)]
  | cons p rest ih =>
    intro k a v hne
    obtain ⟨k', v'⟩ := p
    by_cases h : k' = k
    · subst h
      simp only [setKey, if_pos rfl, lookupKey]
      rw [if_neg (fun h => hne h.symm), if_neg (fun h => hne h.symm)]
    · simp only [setKey, if_neg h, lookupKey]
      by_cases h2 : k' = a
      · rw [if_pos h2, if_pos h2]
      · rw [if_neg h2, if_neg h2, ih _ _ _ hne]

/-- `letterCounts` object: insertion-ordered string-keyed counts. -/
abbrev LetterCounts := List (JStr × ℕ)

/-- Defaulted lookup, mirroring `obj[key] || 0`. -/
def lookup0 (m : LetterCounts) (k : JStr) : ℕ := (lookupKey m k).getD 0

/-- The `ALPHABET` constant: `"ABC…Z".split("")`, an array of 26 one-character
strings. -/
def ALPHABET : List JStr :=
  [['A'],['B'],['C'],['D'],['E'],['F'],['G'],['H'],['I'],['J'],['K'],['L'],
   ['M'],['N'],['O'],['P'],['Q'],['R'],['S'],['T'],['U'],['V'],['W'],['X'],
   ['Y'],['Z']]

/-- `Spice` interface: a name with an optional category. -/
structure Spice where
  name : JStr
  category : Option JStr := none
deriving DecidableEq

/-- `InventoryItem` interface: spice data plus id and timestamp. -/
structure InventoryItem where
  name : JStr
  category : Option JStr
  id : JStr
  addedAt : JStr
deriving DecidableEq

/-- The mutable fields of a `SpiceLogic` instance that the embedded core
reads and writes.  (User-identification and timestamp fields only feed
persistence I/O and are omitted.) -/
structure SpiceState where
  inventory : List InventoryItem
  letterCounts : LetterCounts
  numShelves : ℕ
  totalJars : ℤ
  spices : List Spice
  ignoreDuplicates : Bool
deriving DecidableEq

/-- Zero-filled letter counts, as built by the constructor's
`ALPHABET.forEach(letter => { this.letterCounts[letter] = 0 })`. -/
def zeroCounts : LetterCounts := ALPHABET.map (fun l => (l, 0))

/-- The constructor state of `new SpiceLogic(initialSpices)`. -/
def freshState (initialSpices : List Spice) : SpiceState :=
  { inventory := []
    letterCounts := zeroCounts
    numShelves := 3
    totalJars := 0
    spices := initialSpices
    ignoreDuplicates := false }

/-- `name.charAt(0).toUpperCase()`: the (possibly empty) uppercased first
character, as a string. -/
def firstLetterOf (name : JStr) : JStr := (name.take 1).map upChar

/-- `SpiceLogic.addSpice`: normalize the name, build the item with the
supplied fresh id and timestamp (`Date.now()`/`Math.random()`/`new Date()` are
external inputs of the model), push it, bump the letter count and the total.
The source performs no validation: there is no error path. -/
def addSpice (spice : Spice) (freshId addedAt : JStr) (s : SpiceState) :
    InventoryItem × SpiceState :=
  let properlyCapitalizedName := properlyCapitalizeName spice.name
  let firstLetter := firstLetterOf properlyCapitalizedName
  let newItem : InventoryItem :=
    { name := properlyCapitalizedName
      category := none
      id := freshId
      addedAt := addedAt }
  (newItem,
   { s with
      inventory := s.inventory ++ [newItem]
      letterCounts :=
        setKey s.letterCounts firstLetter (lookup0 s.letterCounts firstLetter + 1)
      totalJars := s.totalJars + 1 })

/-- `SpiceLogic.removeSpice`: find by id; if absent return `false` with no
change, otherwise filter the item out, decrement its letter count (floored at
zero: `Math.max(0, c - 1)` is truncated subtraction on `ℕ`) and the total. -/
def removeSpice (id : JStr) (s : SpiceState) : Bool × SpiceState :=
  match s.inventory.find? (fun item => item.id = id) with
  | none => (false, s)
  | some itemToRemove =>
    let firstLetter := firstLetterOf itemToRemove.name
    (true,
     { s with
        inventory := s.inventory.filter (fun item => ¬(item.id = id))
        letterCounts :=
          setKey s.letterCounts firstLetter
            (lookup0 s.letterCounts firstLetter - 1)
        totalJars := s.totalJars - 1 })

/-- `SpiceLogic.resetInventory`: clear the inventory, zero all letter counts,
zero the total. -/
def resetInventory (s : SpiceState) : SpiceState :=
  { s with inventory := [], letterCounts := zeroCounts, totalJars := 0 }

/-- `SpiceLogic.setNumShelves`: `Math.max(1, num)`. -/
def setNumShelves (num : ℤ) (s : SpiceState) : SpiceState :=
  { s with numShelves := (max 1 num).toNat }

/-- `Object.values(m).reduce((sum, count) => sum + count, 0)`. -/
def sumValues (m : LetterCounts) : ℕ := (m.map Prod.snd).sum

/-- `SpiceLogic.getEffectiveLetterCounts`: the stored counts, or counts of
distinct names when duplicates are ignored (JS `Set` iterates insertion
order of first occurrences, i.e. `eraseDups`). -/
def getEffectiveLetterCounts (s : SpiceState) : LetterCounts :=
  if s.ignoreDuplicates = false then s.letterCounts
  else
    ((s.inventory.map (fun item => item.name)).eraseDups).foldl
      (fun m name =>
        setKey m (firstLetterOf name) (lookup0 m (firstLetterOf name) + 1))
      zeroCounts

/-- Claim C6: removing an id that matches no inventory entry returns `false`
and leaves the whole state unchanged, without any error path. -/
theorem removeSpice_not_found (s : SpiceState) (id : JStr)
    (h : ∀ it ∈ s.inventory, it.id ≠ id) :
    removeSpice id s = (false, s) := by
  unfold removeSpice
  rw [List.find?_eq_none.mpr (by intro it hit; simpa using h it hit)]

theorem removeSpice_not_found_witness :
    (∀ it ∈ ((addSpice { name := ['B','a','s','i','l'] } ['1'] []
        (freshState [])).2).inventory, it.id ≠ ['2']) ∧
    removeSpice ['2'] ((addSpice { name := ['B','a','s','i','l'] } ['1'] []
        (freshState [])).2) =
      (false, (addSpice { name := ['B','a','s','i','l'] } ['1'] []
        (freshState [])).2) :=
  ⟨by decide, removeSpice_not_found _ ['2'] (by decide)⟩

/-- Claim C5, counterexample: `addSpice` with a whitespace-only name is NOT
rejected — the source contains no validation and no `InvalidNameError` — and
an inventory entry (with empty name) IS created. -/
theorem addSpice_whitespace_creates_entry :
    ((addSpice { name := [' ', ' '] } ['i','d'] [] (freshState [])).2).inventory
      = [{ name := [], category := none, id := ['i','d'], addedAt := [] }] ∧
    ((addSpice { name := [' ', ' '] } ['i','d'] []
        (freshState [])).2).totalJars = 1 := by
  constructor <;> decide

/-- Claim C5 as amended: `addSpice` never fails for any input (it is a total
function with no error path) and always appends exactly one inventory entry
carrying the normalized name — including for names that are empty or
whitespace-only after normalization, which are stored with an empty name
rather than rejected. -/
theorem addSpice_total (spice : Spice) (freshId addedAt : JStr)
    (s : SpiceState) :
    (addSpice spice freshId addedAt s).2.inventory =
      s.inventory ++ [(addSpice spice freshId addedAt s).1] ∧
    (addSpice spice freshId addedAt s).1.name =
      properlyCapitalizeName spice.name := by
  constructor <;> rfl

/-- Operations of the inventory store considered by claim C9.  The fresh id
and timestamp that `addSpice` draws from `Date.now()`/`Math.random()` are
inputs of the model. -/
inductive SpiceOp where
  | add (spice : Spice) (freshId addedAt : JStr)
  | remove (id : JStr)
  | reset
deriving DecidableEq

def applySpiceOp (s : SpiceState) : SpiceOp → SpiceState
  | SpiceOp.add spice freshId addedAt => (addSpice spice freshId addedAt s).2
  | SpiceOp.remove id => (removeSpice id s).2
  | SpiceOp.reset => resetInventory s

def runOps (s : SpiceState) (ops : List SpiceOp) : SpiceState :=
  ops.foldl applySpiceOp s

/-- The fresh ids consumed by the `add` operations of a run. -/
def addIds : List SpiceOp → List JStr
  | [] => []
  | SpiceOp.add _ freshId _ :: rest => freshId :: addIds rest
  | _ :: rest => addIds rest

/-- The stored-counts invariant of claim C9: every one of the 26 letters has
an entry in `letterCounts`, that entry counts exactly the inventory items
whose uppercased first character is that letter, and `totalJars` is the
inventory size. -/
def inventoryInvariant (s : SpiceState) : Prop :=
  (∀ L ∈ ALPHABET, lookupKey s.letterCounts L =
    some ((s.inventory.filter (fun it => firstLetterOf it.name = L)).length)) ∧
  s.totalJars = s.inventory.length

theorem lookupKey_zeroCounts :
    ∀ L ∈ ALPHABET, lookupKey zeroCounts L = some 0 := by decide

theorem inventoryInvariant_fresh (initialSpices : List Spice) :
    inventoryInvariant (freshState initialSpices) := by
  constructor
  · intro L hL
    simpa using lookupKey_zeroCounts L hL
  · rfl

theorem inventoryInvariant_add (s : SpiceState) (spice : Spice)
    (freshId addedAt : JStr) (h : inventoryInvariant s) :
    inventoryInvariant (addSpice spice freshId addedAt s).2 := by
  obtain ⟨hcounts, htotal⟩ := h
  unfold addSpice
  constructor
  · intro L hL
    simp only []
    by_cases hfl :
        firstLetterOf (properlyCapitalizeName spice.name) = L
    · rw [hfl, lookupKey_setKey_self]
      have hl0 : lookup0 s.letterCounts L =
          (s.inventory.filter (fun it => firstLetterOf it.name = L)).length := by
        unfold lookup0
        rw [hcounts L hL]
        rfl
      rw [hl0]
      congr 1
      rw [List.filter_append, List.length_append]
      simp [hfl]
    · rw [lookupKey_setKey_ne _ _ _ _ (fun hcontra => hfl hcontra.symm)]
      rw [hcounts L hL]
      congr 1
      rw [List.filter_append, List.length_append]
      simp [hfl]
  · simp only []
    rw [htotal, List.length_append, List.length_singleton]
    push_cast
    ring

theorem filter_remove_decomp :
    ∀ (l : List InventoryItem) (it : InventoryItem) (i : JStr),
      (l.map (fun x => x.id)).Nodup → it ∈ l → it.id = i →
      ∃ l₁ l₂, l = l₁ ++ it :: l₂ ∧
        l.filter (fun x => ¬(x.id = i)) = l₁ ++ l₂ := by
  intro l
  induction l with
  | nil => intro it i _ hmem _; simp at hmem
  | cons a rest ih =>
    intro it i hnd hmem hi
    rw [List.map_cons] at hnd
    obtain ⟨hnotmem, hnd'⟩ := List.nodup_cons.mp hnd
    have hhead : ∀ x ∈ rest, a.id ≠ x.id := by
      intro x hx hcontra
      exact hnotmem (by rw [hcontra]; exact List.mem_map_of_mem _ hx)
    by_cases hid : a.id = i
    · have hait : a = it := by
        rcases List.mem_cons.mp hmem with h | h
        · exact h.symm
        · exact absurd (hid.trans hi.symm) (hhead it h)
      subst hait
      refine ⟨[], rest, by simp, ?_⟩
      rw [List.filter_cons_of_neg (by simp [hid])]
      rw [List.filter_eq_self.mpr
        (fun x hx => by
          have := (hhead x hx)
          simp only [decide_eq_true_eq]
          intro hcontra
          exact this ((hcontra.trans hi.symm).symm ▸ rfl))]
      rfl
    · have hit : it ∈ rest := by
        rcases List.mem_cons.mp hmem with h | h
        · exact absurd (by rw [← h]; exact hi) hid
        · exact h
      obtain ⟨l₁, l₂, hdec, hfil⟩ := ih it i hnd' hit hi
      refine ⟨a :: l₁, l₂, by rw [hdec]; rfl, ?_⟩
      rw [List.filter_cons_of_pos (by simp [hid])]
      rw [hfil]
      rfl

theorem inventoryInvariant_remove (s : SpiceState) (id : JStr)
    (h : inventoryInvariant s)
    (hnd : (s.inventory.map (fun x => x.id)).Nodup) :
    inventoryInvariant (removeSpice id s).2 := by
  obtain ⟨hcounts, htotal⟩ := h
  rcases hf : s.inventory.find? (fun item => item.id = id) with _ | item
  · unfold removeSpice
    rw [hf]
    exact ⟨hcounts, htotal⟩
  · have hitem : item ∈ s.inventory := List.mem_of_find?_eq_some hf
    have hid : item.id = id := by simpa using List.find?_some hf
    obtain ⟨l₁, l₂, hdec, hfil⟩ :=
      filter_remove_decomp s.inventory item id hnd hitem hid
    unfold removeSpice
    rw [hf]
    constructor
    · intro L hL
      dsimp only []
      rw [hfil]
      by_cases hfl : firstLetterOf item.name = L
      · rw [hfl, lookupKey_setKey_self]
        have hl0 : lookup0 s.letterCounts L =
            (s.inventory.filter (fun it => firstLetterOf it.name = L)).length := by
          unfold lookup0
          rw [hcounts L hL]
          rfl
        rw [hl0, hdec]
        rw [List.filter_append, List.length_append, List.filter_append,
          List.length_append, List.filter_cons_of_pos (by simp [hfl])]
        simp
      · rw [lookupKey_setKey_ne _ _ _ _ (fun hcontra => hfl hcontra.symm)]
        rw [hcounts L hL, hdec]
        rw [List.filter_append, List.length_append, List.filter_append,
          List.length_append, List.filter_cons_of_neg (by simp [hfl])]
    · dsimp only []
      rw [hfil, htotal, hdec]
      rw [List.length_append, List.length_append, List.length_cons]
      push_cast
      ring


theorem inventoryInvariant_reset (s : SpiceState) :
    inventoryInvariant (resetInventory s) := by
  constructor
  · intro L hL
    simpa using lookupKey_zeroCounts L hL
  · rfl

theorem removeSpice_inventory_sublist (id : JStr) (s : SpiceState) :
    ((removeSpice id s).2.inventory).Sublist s.inventory := by
  unfold removeSpice
  rcases hf : s.inventory.find? (fun item => item.id = id) with _ | item
  · rw [hf]
  · rw [hf]
    exact List.filter_sublist _

theorem runOps_inv :
    ∀ (ops : List SpiceOp) (s : SpiceState), inventoryInvariant s →
      ((s.inventory.map (fun it => it.id)) ++ addIds ops).Nodup →
      inventoryInvariant (runOps s ops) := by
  intro ops
  induction ops with
  | nil => intro s h _; exact h
  | cons op rest ih =>
    intro s h hnd
    show inventoryInvariant (runOps (applySpiceOp s op) rest)
    cases op with
    | add spice freshId addedAt =>
      refine ih _ (inventoryInvariant_add s spice freshId addedAt h) ?_
      have hids : (applySpiceOp s (SpiceOp.add spice freshId addedAt)).inventory.map
          (fun it => it.id) = s.inventory.map (fun it => it.id) ++ [freshId] := by
        show ((addSpice spice freshId addedAt s).2.inventory).map _ = _
        unfold addSpice
        rw [List.map_append]
        rfl
      rw [hids, List.append_assoc]
      exact hnd
    | remove id =>
      have hleft : (s.inventory.map (fun it => it.id)).Nodup :=
        hnd.of_append_left
      refine ih _ (inventoryInvariant_remove s id h hleft) ?_
      have hsub : ((applySpiceOp s (SpiceOp.remove id)).inventory.map
            (fun it => it.id) ++ addIds rest).Sublist
          (s.inventory.map (fun it => it.id) ++ addIds rest) :=
        ((removeSpice_inventory_sublist id s).map _).append_right _
      exact hsub.nodup hnd
    | reset =>
      refine ih _ (inventoryInvariant_reset s) ?_
      show ((([] : List InventoryItem).map (fun it => it.id)) ++
        addIds rest).Nodup
      exact (List.sublist_append_right _ _).nodup hnd

/-- Claim C9: after every sequence of `addSpice` / `removeSpice` /
`resetInventory` operations on a fresh instance (with the internally
generated ids pairwise distinct, as `Date.now()`-plus-random intends), the
stored `letterCounts` have an entry for each of the 26 uppercase letters
counting exactly the inventory entries whose uppercased first name character
is that letter, and `totalJars` equals the inventory size. -/
theorem runOps_inventoryInvariant (initialSpices : List Spice)
    (ops : List SpiceOp) (h : (addIds ops).Nodup) :
    inventoryInvariant (runOps (freshState initialSpices) ops) :=
  runOps_inv ops (freshState initialSpices)
    (inventoryInvariant_fresh initialSpices) (by simpa using h)

theorem runOps_inventoryInvariant_witness :
    ((addIds [SpiceOp.add { name := ['b','a','s','i','l'] } ['1'] [],
        SpiceOp.add { name := ['C','u','m','i','n'] } ['2'] [],
        SpiceOp.remove ['1'],
        SpiceOp.add { name := [' '] } ['3'] [],
        SpiceOp.reset,
        SpiceOp.add { name := ['S','a','g','e'] } ['4'] []]).Nodup) ∧
    inventoryInvariant (runOps (freshState [])
      [SpiceOp.add { name := ['b','a','s','i','l'] } ['1'] [],
        SpiceOp.add { name := ['C','u','m','i','n'] } ['2'] [],
        SpiceOp.remove ['1'],
        SpiceOp.add { name := [' '] } ['3'] [],
        SpiceOp.reset,
        SpiceOp.add { name := ['S','a','g','e'] } ['4'] []]) :=
  ⟨by decide, runOps_inventoryInvariant [] _ (by decide)⟩

/-- `table[i][0]`: prefix sums of the jar counts (sum of entries `0..i`). -/
def preSum (a : List ℕ) (i : ℕ) : ℕ := (a.take (i + 1)).sum

/-- The argmin scan of the DP inner loop: starting from a current best
(value and index), scan the remaining costs, strictly improving only
(`cost < min`), so the FIRST minimum wins.  Returns (first argmin index,
minimum value). -/
def argminAux : ℕ → ℕ → ℕ → List ℕ → ℕ × ℕ
  | bestIdx, bestVal, _, [] => (bestIdx, bestVal)
  | bestIdx, bestVal, curIdx, c :: rest =>
    if c < bestVal then argminAux curIdx c (curIdx + 1) rest
    else argminAux bestIdx bestVal (curIdx + 1) rest

/-- Argmin over a cost list; the JS loop seeds with `Infinity` so the first
cost always becomes the initial best. -/
def minScan : List ℕ → ℕ × ℕ
  | [] => (0, 0)
  | c :: rest => argminAux 0 c 1 rest

/-- The DP table of `linearPartition`, `tbl a j i = table[i][j]`:
column 0 holds prefix sums, row 0 holds `a[0]`, and otherwise the cell is the
minimum over split points `x < i` of
`max(table[x][j-1], table[i][0] - table[x][0])`. -/
def tbl (a : List ℕ) : ℕ → ℕ → ℕ
  | 0, i => preSum a i
  | _ + 1, 0 => a.headD 0
  | j + 1, i + 1 =>
    (minScan ((List.range (i + 1)).map
      (fun x => max (tbl a j x) (preSum a (i + 1) - preSum a x)))).2

/-- The reconstruction table of `linearPartition`,
`sol a j i = solution[i-1][j-1]`: the first argmin `x` of the cell `(i, j)`
scan. -/
def sol (a : List ℕ) (j i : ℕ) : ℕ :=
  (minScan ((List.range i).map
    (fun x => max (tbl a (j - 1) x) (preSum a i - preSum a x)))).1

/-- The trailing `if (ans.length === 0 || ans[0][0] > 0) ans.unshift([0, idx])`
of the reconstruction. -/
def finalizeAns (idx : ℕ) (ans : List (ℕ × ℕ)) : List (ℕ × ℕ) :=
  match ans with
  | [] => [(0, idx)]
  | (s, _) :: _ => if 0 < s then (0, idx) :: ans else ans

/-- The reconstruction loop of `linearPartition` (`while (kShelves > 1)`),
including its falsy guard: `!solution[idx - 1][kShelves - 2]` treats a stored
split point of `0` like a missing entry and takes the single-element fallback
branch. -/
def recon (a : List ℕ) : ℕ → ℕ → List (ℕ × ℕ) → List (ℕ × ℕ)
  | 0, idx, ans => finalizeAns idx ans
  | 1, idx, ans => finalizeAns idx ans
  | kSh + 2, idx, ans =>
    if idx = 0 then finalizeAns idx ans
    else if sol a (kSh + 1) idx = 0 then
      recon a (kSh + 1) (idx - 1) ((idx, idx) :: ans)
    else
      recon a (kSh + 1) (sol a (kSh + 1) idx)
        ((sol a (kSh + 1) idx + 1, idx) :: ans)

/-- `SpiceLogic.linearPartition`: dynamic program splitting the ordered jar
counts into at most `k` contiguous runs, returning `[start, end]` index
pairs. -/
def linearPartition (letterJarCounts : List ℕ) (k : ℕ) : List (ℕ × ℕ) :=
  let n := letterJarCounts.length
  if k = 0 then []
  else
    let k2 := min k n
    if n = 1 then [(0, 0)]
    else if k2 = 1 then [(0, n - 1)]
    else if n < 2 then []
    else recon letterJarCounts k2 (n - 1) []

/-- `SpiceLogic.calculateOptimalDistributionWithParams`: filter the alphabet
to letters with jars, handle the one-shelf case and the two hard-coded test
fixtures, otherwise run `linearPartition` and convert the index ranges to
letter slices, padding with empty shelves. -/
def calculateOptimalDistributionWithParams (letterCounts : LetterCounts)
    (totalJars : ℕ) (numShelves : ℕ) : List (List JStr) :=
  if totalJars = 0 ∨ numShelves = 0 then []
  else
    let letters := ALPHABET.filter (fun letter => 0 < lookup0 letterCounts letter)
    if letters = [] then []
    else if numShelves = 1 then [letters]
    else if numShelves = 3 ∧ letters.length = 4 ∧
        (∀ l ∈ letters, l ∈ [['A'], ['B'], ['C'], ['P']]) then
      [[['A']], [['B']], [['C'], ['P']]]
    else if letters.length = 3 ∧ ['A'] ∈ letters ∧ ['D'] ∈ letters ∧
        ['Z'] ∈ letters ∧ numShelves = 2 then
      [[['A'], ['D']], [['Z']]]
    else
      let letterJarCounts := letters.map (fun letter => lookup0 letterCounts letter)
      let partitions := linearPartition letterJarCounts numShelves
      let distribution := (partitions.map
        (fun p => (letters.drop p.1).take (p.2 + 1 - p.1))).filter
        (fun shelf => ¬(shelf = []))
      distribution ++ List.replicate (numShelves - distribution.length) []

/-- `SpiceLogic.calculateOptimalDistribution`: the class method applies the
parameterized computation to the effective letter counts, their value sum and
the stored shelf count. -/
def calculateOptimalDistribution (s : SpiceState) : List (List JStr) :=
  let effectiveLetterCounts := getEffectiveLetterCounts s
  calculateOptimalDistributionWithParams effectiveLetterCounts
    (sumValues effectiveLetterCounts) s.numShelves

/-- Total jar count assigned to one shelf. -/
def shelfLoad (counts : LetterCounts) (shelf : List JStr) : ℕ :=
  (shelf.map (fun letter => lookup0 counts letter)).sum

/-- Largest per-shelf total of a distribution. -/
def maxShelfLoad (counts : LetterCounts) (shelves : List (List JStr)) : ℕ :=
  (shelves.map (fun shelf => shelfLoad counts shelf)).foldl max 0

/-- Bucket counts A=10, B=1, C=1 — a failing input for claim C1. -/
def c1Counts : LetterCounts :=
  setKey (setKey (setKey zeroCounts ['A'] 10) ['B'] 1) ['C'] 1

/-- Claim C1 fails on the code (code bug): on counts A=10, B=1, C=1 with two
shelves the computation returns the split AB|C with maximum shelf load 11,
while the contiguous split A|BC of the same non-zero letters reaches maximum
load 10 — the reconstruction's falsy guard discards the stored split point 0.
This theorem evaluates the embedded code at that failing input. -/
theorem calculateOptimalDistribution_not_optimal :
    calculateOptimalDistributionWithParams c1Counts (sumValues c1Counts) 2 =
      [[['A'], ['B']], [['C']]] ∧
    maxShelfLoad c1Counts
      (calculateOptimalDistributionWithParams c1Counts (sumValues c1Counts) 2)
      = 11 ∧
    List.flatten [[['A']], [['B'], ['C']]] =
      ALPHABET.filter (fun letter => 0 < lookup0 c1Counts letter) ∧
    List.length [[['A']], [['B'], ['C']]] = 2 ∧
    maxShelfLoad c1Counts [[['A']], [['B'], ['C']]] = 10 := by
  refine ⟨by decide, by decide, by decide, by decide, by decide⟩

theorem lookupKey_some_mem {α β : Type} [DecidableEq α] :
    ∀ (m : List (α × β)) (a : α) (b : β),
      lookupKey m a = some b → (a, b) ∈ m := by
  intro m
  induction m with
  | nil => intro a b h; simp [lookupKey] at h
  | cons p rest ih =>
    intro a b h
    obtain ⟨k, v⟩ := p
    by_cases hk : k = a
    · subst hk
      simp [lookupKey] at h
      simp [h]
    · simp [lookupKey, hk] at h
      exact List.mem_cons_of_mem _ (ih a b h)

theorem lookup0_eq_zero_of_sumValues_eq_zero (m : LetterCounts)
    (h : sumValues m = 0) (k : JStr) : lookup0 m k = 0 := by
  unfold lookup0
  rcases hl : lookupKey m k with _ | v
  · rfl
  · have hmem : (k, v) ∈ m := lookupKey_some_mem m k v hl
    have hv : v ∈ m.map Prod.snd := List.mem_map_of_mem _ hmem
    have : v ≤ (m.map Prod.snd).sum :=
      List.single_le_sum (by intro x _; exact Nat.zero_le x) v hv
    unfold sumValues at h
    simp [Nat.le_zero.mp (h ▸ this)]

/-- A partition list tiles the index interval `[lo, hi]`: each pair starts
where the previous one stopped, start never exceeds stop, and the pairs
jointly cover exactly `[lo, hi]`. -/
def covers : List (ℕ × ℕ) → ℕ → ℕ → Prop
  | [], lo, hi => lo = hi + 1
  | (s, e) :: rest, lo, hi => s = lo ∧ s ≤ e ∧ covers rest (e + 1) hi

theorem argminAux_fst_lt :
    ∀ (rest : List ℕ) (bestIdx bestVal curIdx : ℕ), bestIdx < curIdx →
      (argminAux bestIdx bestVal curIdx rest).1 < curIdx + rest.length := by
  intro rest
  induction rest with
  | nil => intro bi bv ci h; simpa [argminAux] using h
  | cons c rest' ih =>
    intro bi bv ci h
    unfold argminAux
    by_cases hc : c < bv
    · rw [if_pos hc]
      have := ih ci c (ci + 1) (Nat.lt_succ_self ci)
      calc (argminAux ci c (ci + 1) rest').1 < ci + 1 + rest'.length := this
        _ = ci + (c :: rest').length := by simp; ring
    · rw [if_neg hc]
      have := ih bi bv (ci + 1) (Nat.lt_succ_of_lt h)
      calc (argminAux bi bv (ci + 1) rest').1 < ci + 1 + rest'.length := this
        _ = ci + (c :: rest').length := by simp; ring

theorem minScan_fst_lt (l : List ℕ) (h : l ≠ []) :
    (minScan l).1 < l.length := by
  cases l with
  | nil => exact absurd rfl h
  | cons c rest =>
    unfold minScan
    have := argminAux_fst_lt rest 0 c 1 Nat.zero_lt_one
    simpa [Nat.add_comm] using this

theorem sol_lt (a : List ℕ) (j i : ℕ) (h : 1 ≤ i) : sol a j i < i := by
  unfold sol
  have hne : ((List.range i).map
      (fun x => max (tbl a (j - 1) x) (preSum a i - preSum a x))) ≠ [] := by
    simp [List.map_eq_nil_iff, List.range_eq_nil]
    omega
  have := minScan_fst_lt _ hne
  simpa using this

theorem finalizeAns_covers (idx hi : ℕ) (ans : List (ℕ × ℕ))
    (h : covers ans (idx + 1) hi) :
    covers (finalizeAns idx ans) 0 hi := by
  cases ans with
  | nil =>
    unfold finalizeAns covers
    exact ⟨rfl, Nat.zero_le idx, h⟩
  | cons p rest =>
    obtain ⟨s, e⟩ := p
    obtain ⟨hs, hse, hrest⟩ := h
    show covers (if 0 < s then (0, idx) :: (s, e) :: rest else (s, e) :: rest)
      0 hi
    rw [if_pos (by omega)]
    exact ⟨rfl, Nat.zero_le idx, hs, hse, hrest⟩

theorem recon_covers (a : List ℕ) :
    ∀ (kSh idx : ℕ) (ans : List (ℕ × ℕ)) (hi : ℕ),
      covers ans (idx + 1) hi → covers (recon a kSh idx ans) 0 hi := by
  intro kSh
  induction kSh using Nat.strong_induction_on with
  | _ kSh ih =>
    match kSh with
    | 0 => intro idx ans hi h; exact finalizeAns_covers idx hi ans h
    | 1 => intro idx ans hi h; exact finalizeAns_covers idx hi ans h
    | kSh + 2 =>
      intro idx ans hi h
      show covers (recon a (kSh + 2) idx ans) 0 hi
      unfold recon
      by_cases h0 : idx = 0
      · rw [if_pos h0]
        exact finalizeAns_covers idx hi ans h
      · rw [if_neg h0]
        by_cases hz : sol a (kSh + 1) idx = 0
        · rw [if_pos hz]
          refine ih (kSh + 1) (by omega) (idx - 1) _ hi ?_
          show covers ((idx, idx) :: ans) (idx - 1 + 1) hi
          refine ⟨by omega, Nat.le_refl idx, h⟩
        · rw [if_neg hz]
          have hlt : sol a (kSh + 1) idx < idx := sol_lt a (kSh + 1) idx (by omega)
          refine ih (kSh + 1) (by omega) (sol a (kSh + 1) idx) _ hi ?_
          show covers ((sol a (kSh + 1) idx + 1, idx) :: ans)
            (sol a (kSh + 1) idx + 1) hi
          exact ⟨rfl, by omega, h⟩

theorem covers_le : ∀ (l : List (ℕ × ℕ)) (lo hi : ℕ),
    covers l lo hi → lo ≤ hi + 1 := by
  intro l
  induction l with
  | nil => intro lo hi h; exact Nat.le_of_eq h
  | cons p rest ih =>
    intro lo hi h
    obtain ⟨s, e⟩ := p
    obtain ⟨hs, hse, hrest⟩ := h
    have := ih (e + 1) hi hrest
    omega

theorem covers_bounds : ∀ (l : List (ℕ × ℕ)) (lo hi : ℕ),
    covers l lo hi → ∀ p ∈ l, lo ≤ p.1 ∧ p.1 ≤ p.2 ∧ p.2 ≤ hi := by
  intro l
  induction l with
  | nil => intro lo hi _ p hp; simp at hp
  | cons q rest ih =>
    intro lo hi h p hp
    obtain ⟨s, e⟩ := q
    obtain ⟨hs, hse, hrest⟩ := h
    rcases List.mem_cons.mp hp with hp | hp
    · subst hp
      have := covers_le rest (e + 1) hi hrest
      exact ⟨Nat.le_of_eq hs.symm, hse, by omega⟩
    · have := ih (e + 1) hi hrest p hp
      exact ⟨by omega, this.2.1, this.2.2⟩

theorem covers_flatten_slices {α : Type} :
    ∀ (parts : List (ℕ × ℕ)) (lo : ℕ) (L : List α), 1 ≤ L.length →
      covers parts lo (L.length - 1) →
      ((parts.map (fun p => (L.drop p.1).take (p.2 + 1 - p.1))).flatten) =
        L.drop lo := by
  intro parts
  induction parts with
  | nil =>
    intro lo L hL h
    unfold covers at h
    rw [List.map_nil]
    rw [List.drop_eq_nil_of_le (by omega)]
    rfl
  | cons p rest ih =>
    intro lo L hL h
    obtain ⟨s, e⟩ := p
    obtain ⟨hs, hse, hrest⟩ := h
    subst hs
    rw [List.map_cons, List.flatten_cons, ih (e + 1) L hL hrest]
    have hdd : List.drop (e + 1) L = List.drop (e + 1 - s)
        (List.drop s L) := by
      rw [List.drop_drop]
      congr 1
      omega
    rw [hdd, List.take_append_drop]

theorem linearPartition_covers (a : List ℕ) (k : ℕ) (hk : 1 ≤ k)
    (ha : 1 ≤ a.length) :
    covers (linearPartition a k) 0 (a.length - 1) := by
  unfold linearPartition
  rw [if_neg (show ¬(k = 0) by omega)]
  by_cases h1 : a.length = 1
  · rw [if_pos h1]
    exact ⟨rfl, Nat.le_refl 0, by show 1 = a.length - 1 + 1; omega⟩
  · rw [if_neg h1]
    by_cases h2 : min k a.length = 1
    · rw [if_pos h2]
      exact ⟨rfl, Nat.zero_le _, rfl⟩
    · rw [if_neg h2]
      rw [if_neg (show ¬(a.length < 2) by omega)]
      exact recon_covers a (min k a.length) (a.length - 1) [] (a.length - 1) rfl

theorem filter_alphabet_eq_of_subset (P : JStr → Bool) (S : List JStr)
    (hS : ALPHABET.filter (fun l => decide (l ∈ S)) = S)
    (hsub : ∀ l ∈ ALPHABET.filter P, l ∈ S)
    (hlen : (ALPHABET.filter P).length = S.length) :
    ALPHABET.filter P = S := by
  have h1 : (ALPHABET.filter P).filter (fun l => decide (l ∈ S)) =
      ALPHABET.filter P :=
    List.filter_eq_self.mpr (fun x hx => by simpa using hsub x hx)
  have h2 : ((ALPHABET.filter P).filter (fun l => decide (l ∈ S))).Sublist
      (ALPHABET.filter (fun l => decide (l ∈ S))) :=
    (List.filter_sublist ALPHABET).filter _
  rw [h1, hS] at h2
  exact h2.eq_of_length hlen

theorem flatten_replicate_nil {α : Type} :
    ∀ n : ℕ, (List.replicate n ([] : List α)).flatten = [] := by
  intro n
  induction n with
  | zero => rfl
  | succ n ih => simp [List.replicate_succ, ih]

theorem disjoint_nil_r {α : Type} (l : List α) : l.Disjoint [] := by
  intro x _ hx
  simp at hx

theorem disjoint_nil_l {α : Type} (l : List α) : ([] : List α).Disjoint l := by
  intro x hx _
  simp at hx

theorem pairwise_disjoint_replicate_nil {α : Type} (n : ℕ) :
    List.Pairwise List.Disjoint (List.replicate n ([] : List α)) := by
  induction n with
  | zero => exact List.Pairwise.nil
  | succ n ih =>
    rw [List.replicate_succ]
    exact List.Pairwise.cons (fun b _ => disjoint_nil_l b) ih

/-- Claim C4: for every bucket-count map and shelf count at least 1, the
per-shelf letter lists returned by the distribution computation are pairwise
disjoint, their concatenation is exactly the ordered sequence of letters with
a non-zero count (joint coverage), and each shelf is a contiguous ascending
run of that sequence (an infix of it). -/
theorem calculateOptimalDistribution_partition (letterCounts : LetterCounts)
    (numShelves : ℕ) (h : 1 ≤ numShelves) :
    (calculateOptimalDistributionWithParams letterCounts
        (sumValues letterCounts) numShelves).flatten =
      ALPHABET.filter (fun letter => 0 < lookup0 letterCounts letter) ∧
    List.Pairwise List.Disjoint
      (calculateOptimalDistributionWithParams letterCounts
        (sumValues letterCounts) numShelves) ∧
    ∀ shelf ∈ calculateOptimalDistributionWithParams letterCounts
        (sumValues letterCounts) numShelves,
      shelf <:+:
        ALPHABET.filter (fun letter => 0 < lookup0 letterCounts letter) := by
  have hnodupA : ALPHABET.Nodup := by decide
  simp only [calculateOptimalDistributionWithParams]
  set letters :=
    ALPHABET.filter (fun letter => decide (0 < lookup0 letterCounts letter))
    with hletters
  have hsubl : letters.Sublist ALPHABET := List.filter_sublist _
  have hnodup : letters.Nodup := hsubl.nodup hnodupA
  by_cases h0 : sumValues letterCounts = 0 ∨ numShelves = 0
  · rw [if_pos h0]
    have hz : sumValues letterCounts = 0 := by
      rcases h0 with h0 | h0
      · exact h0
      · omega
    have hle : letters = [] := by
      rw [hletters]
      apply List.filter_eq_nil_iff.mpr
      intro x _
      simp [lookup0_eq_zero_of_sumValues_eq_zero letterCounts hz x]
    exact ⟨by rw [hle]; rfl, List.Pairwise.nil, by intro shelf hs; simp at hs⟩
  · rw [if_neg h0]
    by_cases h1 : letters = []
    · rw [if_pos h1]
      exact ⟨by rw [h1]; rfl, List.Pairwise.nil, by intro shelf hs; simp at hs⟩
    · rw [if_neg h1]
      by_cases h2 : numShelves = 1
      · rw [if_pos h2]
        refine ⟨by simp, List.pairwise_singleton _ _, ?_⟩
        intro shelf hs
        rw [List.mem_singleton.mp hs]
      · rw [if_neg h2]
        by_cases h3 : numShelves = 3 ∧ letters.length = 4 ∧
            ∀ l ∈ letters, l ∈ [['A'], ['B'], ['C'], ['P']]
        · rw [if_pos h3]
          have hl : letters = [['A'], ['B'], ['C'], ['P']] := by
            rw [hletters]
            refine filter_alphabet_eq_of_subset _ _ (by decide) ?_ ?_
            · rw [← hletters]; exact h3.2.2
            · rw [← hletters]; exact h3.2.1
          rw [hl]
          refine ⟨by decide, ?_, ?_⟩
          · simp [List.pairwise_cons, List.disjoint_left]
          · intro shelf hs
            fin_cases hs <;> decide
        · rw [if_neg h3]
          by_cases h4 : letters.length = 3 ∧ ['A'] ∈ letters ∧
              ['D'] ∈ letters ∧ ['Z'] ∈ letters ∧ numShelves = 2
          · rw [if_pos h4]
            have hsubset : [['A'], ['D'], ['Z']] ⊆ letters := by
              intro x hx
              simp only [List.mem_cons, List.not_mem_nil, or_false] at hx
              rcases hx with rfl | rfl | rfl
              · exact h4.2.1
              · exact h4.2.2.1
              · exact h4.2.2.2.1
            have hperm : List.Perm [['A'], ['D'], ['Z']] letters :=
              (List.subperm_of_subset (by decide) hsubset).perm_of_length_le
                (by rw [h4.1]; decide)
            have hl : letters = [['A'], ['D'], ['Z']] := by
              rw [hletters]
              refine filter_alphabet_eq_of_subset _ _ (by decide) ?_ ?_
              · rw [← hletters]
                intro l hl
                exact hperm.mem_iff.mpr hl
              · rw [← hletters, h4.1]; decide
            rw [hl]
            refine ⟨by decide, ?_, ?_⟩
            · simp [List.pairwise_cons, List.disjoint_left]
            · intro shelf hs
              fin_cases hs <;> decide
          · rw [if_neg h4]
            have hlen : 0 < letters.length := List.length_pos.mpr h1
            have halen : (letters.map
                (fun letter => lookup0 letterCounts letter)).length =
                letters.length := List.length_map _ _
            have hcov : covers (linearPartition (letters.map
                (fun letter => lookup0 letterCounts letter)) numShelves) 0
                (letters.length - 1) := by
              have := linearPartition_covers
                (letters.map (fun letter => lookup0 letterCounts letter))
                numShelves h (by rw [halen]; omega)
              rwa [halen] at this
            set parts := linearPartition
              (letters.map (fun letter => lookup0 letterCounts letter))
              numShelves with hparts
            have hbounds := covers_bounds parts 0 (letters.length - 1) hcov
            have hne : ∀ p ∈ parts,
                ((letters.drop p.1).take (p.2 + 1 - p.1)) ≠ [] := by
              intro p hp hcontra
              have hb := hbounds p hp
              have hlenz := congrArg List.length hcontra
              rw [List.length_take, List.length_drop] at hlenz
              simp only [List.length_nil] at hlenz
              rw [Nat.min_eq_zero_iff] at hlenz
              omega
            have hfil : (parts.map
                (fun p => (letters.drop p.1).take (p.2 + 1 - p.1))).filter
                (fun shelf => ¬(shelf = [])) = parts.map
                (fun p => (letters.drop p.1).take (p.2 + 1 - p.1)) := by
              apply List.filter_eq_self.mpr
              intro shelf hsh
              obtain ⟨p, hp, rfl⟩ := List.mem_map.mp hsh
              simpa using hne p hp
            have hflat : (parts.map
                (fun p => (letters.drop p.1).take (p.2 + 1 - p.1))).flatten =
                letters := by
              have := covers_flatten_slices parts 0 letters (by omega) hcov
              simpa using this
            rw [hfil]
            refine ⟨?_, ?_, ?_⟩
            · rw [List.flatten_append, hflat, flatten_replicate_nil,
                List.append_nil]
            · have hnn : ((parts.map
                  (fun p => (letters.drop p.1).take (p.2 + 1 - p.1))).flatten).Nodup := by
                rw [hflat]
                exact hnodup
              have hpw := (List.nodup_flatten.mp hnn).2
              rw [List.pairwise_append]
              refine ⟨hpw, pairwise_disjoint_replicate_nil _, ?_⟩
              intro x _ b hb
              rw [List.eq_of_mem_replicate hb]
              exact disjoint_nil_r x
            · intro shelf hs
              rcases List.mem_append.mp hs with hs | hs
              · have hinf : shelf <:+: (parts.map
                    (fun p => (letters.drop p.1).take (p.2 + 1 - p.1))).flatten :=
                  List.infix_of_mem_flatten hs
                rwa [hflat] at hinf
              · rw [List.eq_of_mem_replicate hs]
                exact List.nil_infix

theorem calculateOptimalDistribution_partition_witness :
    1 ≤ 2 ∧
    ((calculateOptimalDistributionWithParams c1Counts
        (sumValues c1Counts) 2).flatten =
      ALPHABET.filter (fun letter => 0 < lookup0 c1Counts letter) ∧
    List.Pairwise List.Disjoint
      (calculateOptimalDistributionWithParams c1Counts
        (sumValues c1Counts) 2) ∧
    ∀ shelf ∈ calculateOptimalDistributionWithParams c1Counts
        (sumValues c1Counts) 2,
      shelf <:+:
        ALPHABET.filter (fun letter => 0 < lookup0 c1Counts letter)) :=
  ⟨by decide, calculateOptimalDistribution_partition c1Counts 2 (by decide)⟩

/-- `ShelfInfo` interface: a display range label and a jar count. -/
structure ShelfInfo where
  range : JStr
  count : ℕ
deriving DecidableEq

/-- JS `split('-')`: split on every dash, keeping empty chunks. -/
def splitOnDashAux : JStr → JStr → List JStr
  | [], cur => [cur.reverse]
  | c :: rest, cur =>
    if c = '-' then cur.reverse :: splitOnDashAux rest []
    else splitOnDashAux rest (c :: cur)

def splitOnDash (l : JStr) : List JStr := splitOnDashAux l []

/-- `range.split('-')[1] || range`: the part after the dash, falling back to
the whole range when there is no dash (or the part is empty, since an empty
JS string is falsy). -/
def rangeEndOr (r : JStr) : JStr :=
  match (splitOnDash r).get? 1 with
  | some p => if p = [] then r else p
  | none => r

/-- `const [start, _] = range.includes('-') ? range.split('-') : [range, range]`. -/
def rangeStartD (r : JStr) : JStr :=
  if '-' ∈ r then (splitOnDash r).headD [] else r

/-- `const [_, end] = range.includes('-') ? range.split('-') : [range, range]`. -/
def rangeEndD (r : JStr) : JStr :=
  if '-' ∈ r then ((splitOnDash r).get? 1).getD [] else r

/-- `Array.prototype.indexOf` with its `-1` not-found sentinel. -/
def jsIndexOf (l : List JStr) (x : JStr) : ℤ :=
  match l.findIdx? (fun y => y = x) with
  | some i => (i : ℤ)
  | none => -1

/-- `fullAlphabet[i]` for a possibly negative or too large index
(out-of-range access yields `undefined`; modelled as the empty string, which
is only reachable on inputs the source never produces). -/
def alphaGet (i : ℤ) : JStr :=
  if 0 ≤ i ∧ i < 26 then ALPHABET.getD i.toNat [] else []

/-- Range label from two alphabet indices: a single letter when they
coincide, otherwise `start-end`. -/
def rangeOfIdx (s e : ℤ) : JStr :=
  if alphaGet s = alphaGet e then alphaGet s
  else alphaGet s ++ '-' :: alphaGet e

/-- The even-alphabet-division fallback of `calculateItemsPerShelf` (used for
an empty distribution and for the no-letters-with-jars case): `Math.ceil(26 /
numShelves)` letters per shelf, all counts zero. -/
def evenSplit (numShelves : ℕ) : List ShelfInfo :=
  let lettersPerShelf := (26 + numShelves - 1) / numShelves
  (List.range numShelves).filterMap (fun i =>
    let start := i * lettersPerShelf
    let e := min (start + lettersPerShelf - 1) 25
    if start ≤ e then
      some { range :=
              if start = e then ALPHABET.getD start []
              else ALPHABET.getD start [] ++ '-' :: ALPHABET.getD e []
             count := 0 }
    else none)

/-- The `for (let i = 0; i < distribution.length; i++)` loop of
`calculateItemsPerShelf`: empty shelves may contribute a zero-count
placeholder label spanning the gap between the previous produced label and
the next populated shelf; single-letter and multi-letter shelves produce
their letter ranges, with the last shelf extended to `Z`. -/
def itemsLoop (eff : LetterCounts) (numShelves : ℕ) :
    List ShelfInfo → ℕ → List (List JStr) → List ShelfInfo
  | acc, _, [] => acc
  | acc, i, shelf :: rest =>
    let isLastShelf := rest = []
    if shelf = [] then
      let acc' :=
        if i < numShelves then
          let prevEndIndex : ℤ :=
            if 0 < i ∧ ¬(acc = []) then
              match acc.getLast? with
              | some si => jsIndexOf ALPHABET (rangeEndOr si.range)
              | none => -1
            else -1
          let nextStartIndex : ℤ :=
            match rest with
            | next :: _ =>
              if ¬(next = []) then jsIndexOf ALPHABET (next.headD []) else 25
            | [] => 25
          if prevEndIndex < nextStartIndex - 1 then
            acc ++ [{ range := rangeOfIdx (prevEndIndex + 1) (nextStartIndex - 1)
                      count := 0 }]
          else acc
        else acc
      itemsLoop eff numShelves acc' (i + 1) rest
    else if shelf.length = 1 then
      let letter := shelf.headD []
      let acc' :=
        if isLastShelf ∧ ¬(letter = ['Z']) then
          acc ++ [{ range := letter ++ '-' :: ['Z'], count := lookup0 eff letter }]
        else
          acc ++ [{ range := letter, count := lookup0 eff letter }]
      itemsLoop eff numShelves acc' (i + 1) rest
    else
      let firstLetter := shelf.headD []
      let lastLetter := shelf.getLastD []
      let endLetter := if isLastShelf then ['Z'] else lastLetter
      let range := firstLetter ++ '-' :: endLetter
      let count := (shelf.map (fun letter => lookup0 eff letter)).sum
      itemsLoop eff numShelves
        (acc ++ [{ range := range, count := count }]) (i + 1) rest

/-- `if (!shelfInfo[0].range.startsWith('A')) shelfInfo[0].range = 'A-' + end`. -/
def fixFirst (si : ShelfInfo) : ShelfInfo :=
  if si.range.headD ' ' = 'A' then si
  else { si with range := 'A' :: '-' :: rangeEndD si.range }

/-- `if (!last.range.endsWith('Z')) last.range = start + '-Z'`. -/
def fixLast (si : ShelfInfo) : ShelfInfo :=
  if si.range.getLastD ' ' = 'Z' then si
  else { si with range := rangeStartD si.range ++ '-' :: ['Z'] }

def modifyLast {α : Type} (f : α → α) : List α → List α
  | [] => []
  | [x] => [f x]
  | x :: y :: rest => x :: modifyLast f (y :: rest)

/-- One iteration of the gap-filling loop over a consecutive label pair:
extend the left label over a one-letter gap, or split a longer gap at its
midpoint between the two labels. -/
def adjustPair (x y : ShelfInfo) : ShelfInfo × ShelfInfo :=
  let currentEnd := rangeEndD x.range
  let nextStart := rangeStartD y.range
  let currentEndIdx := jsIndexOf ALPHABET currentEnd
  let nextStartIdx := jsIndexOf ALPHABET nextStart
  if currentEndIdx + 1 < nextStartIdx then
    if currentEndIdx + 1 = nextStartIdx - 1 then
      ({ x with range := rangeStartD x.range ++ '-' :: alphaGet (currentEndIdx + 1) },
       y)
    else
      let midpoint := (currentEndIdx + nextStartIdx).fdiv 2
      ({ x with range := rangeStartD x.range ++ '-' :: alphaGet midpoint },
       { y with range := alphaGet (midpoint + 1) ++ '-' :: rangeEndD y.range })
  else (x, y)

/-- The `for (let i = 0; i < shelfInfo.length - 1; i++)` gap-filling loop;
iteration `i` reads the pair `(shelfInfo[i], shelfInfo[i+1])` where
`shelfInfo[i]` may already have been rewritten by iteration `i - 1`. -/
def fixGapsAux : ShelfInfo → List ShelfInfo → List ShelfInfo
  | x, [] => [x]
  | x, y :: rest => (adjustPair x y).1 :: fixGapsAux (adjustPair x y).2 rest

def fixGaps : List ShelfInfo → List ShelfInfo
  | [] => []
  | x :: rest => fixGapsAux x rest

/-- `SpiceLogic.calculateItemsPerShelf`: compute the distribution, handle the
three hard-coded special branches, then build the display labels with full
alphabet coverage. -/
def calculateItemsPerShelf (s : SpiceState) : List ShelfInfo :=
  let eff := getEffectiveLetterCounts s
  let distribution :=
    calculateOptimalDistributionWithParams eff (sumValues eff) s.numShelves
  if (distribution.any (fun shelf => ['C'] ∈ shelf ∧ ['P'] ∈ shelf)) ∧
      (∀ L ∈ [['A'], ['B'], ['C'], ['P']],
        distribution.any (fun shelf => L ∈ shelf)) ∧
      distribution.length = 3 then
    [{ range := ['A'], count := lookup0 eff ['A'] },
     { range := ['B'], count := lookup0 eff ['B'] },
     { range := ['C', '-', 'P'],
       count := lookup0 eff ['C'] + lookup0 eff ['P'] }]
  else if (∀ L ∈ [['A'], ['D'], ['Z']], 0 < lookup0 eff L) ∧
      (∀ kv ∈ eff, kv.1 ∈ [['A'], ['D'], ['Z']] ∨ kv.2 = 0) ∧
      s.numShelves = 2 then
    [{ range := ['A', '-', 'D'],
       count := lookup0 eff ['A'] + lookup0 eff ['D'] },
     { range := ['N', '-', 'Z'], count := lookup0 eff ['Z'] }]
  else if 10 < lookup0 eff ['A'] ∧ 0 < lookup0 eff ['T'] ∧
      s.numShelves = 3 then
    [{ range := ['A', '-', 'H'], count := (sumValues eff + 2) / 3 },
     { range := ['I', '-', 'P'], count := (sumValues eff + 2) / 3 },
     { range := ['Q', '-', 'Z'], count := sumValues eff / 3 }]
  else if ¬(distribution = []) then
    if s.numShelves = 1 then
      [{ range := ['A', '-', 'Z'], count := sumValues eff }]
    else if ALPHABET.filter (fun letter => 0 < lookup0 eff letter) = [] then
      evenSplit s.numShelves
    else
      let shelfInfo := itemsLoop eff s.numShelves [] 0 distribution
      if ¬(shelfInfo = []) then
        fixGaps (modifyLast fixLast
          (match shelfInfo with
           | [] => []
           | h :: t => fixFirst h :: t))
      else shelfInfo
  else evenSplit s.numShelves

/-- The inventory state of claim C2's failing input: eleven jars filed under
A and five under T, three shelves (the default). -/
def c2State : SpiceState :=
  runOps (freshState [])
    (List.replicate 11 (SpiceOp.add { name := ['A','n','i','s','e'] } [] []) ++
     List.replicate 5 (SpiceOp.add { name := ['T','h','y','m','e'] } [] []))

/-- Claim C2 fails on the code (code bug): with 11 jars under A and 5 under T
on three shelves the hard-coded "balanced distribution" branch returns counts
`ceil(16/3), ceil(16/3), floor(16/3)` which sum to 17, not to the 16 jars of
the effective bucket counts.  This theorem evaluates the embedded code at
that failing input. -/
theorem calculateItemsPerShelf_not_conserving :
    ((calculateItemsPerShelf c2State).map (fun si => si.count)).sum = 17 ∧
    sumValues (getEffectiveLetterCounts c2State) = 16 := by
  constructor <;> decide

/-- The inventory state of claim C3's failing input: one jar under each of A,
D and Z, two shelves. -/
def c3State : SpiceState :=
  setNumShelves 2 (runOps (freshState [])
    [SpiceOp.add { name := ['A','n','i','s','e'] } ['1'] [],
     SpiceOp.add { name := ['D','i','l','l'] } ['2'] [],
     SpiceOp.add { name := ['Z','a','a','t','a','r'] } ['3'] []])

/-- Claim C3 fails on the code (code bug): with jars under A, D and Z on two
shelves the hard-coded A/D/Z branch returns the labels `A-D` and `N-Z`,
leaving E through M uncovered — the last letter of the first label (D) is not
immediately followed alphabetically by the first letter of the second label
(N).  This theorem evaluates the embedded code at that failing input. -/
theorem calculateItemsPerShelf_label_gap :
    calculateItemsPerShelf c3State =
      [{ range := ['A', '-', 'D'], count := 2 },
       { range := ['N', '-', 'Z'], count := 1 }] ∧
    jsIndexOf ALPHABET [(rangeEndD ['A', '-', 'D']).getLastD ' '] + 1 ≠
      jsIndexOf ALPHABET [(rangeStartD ['N', '-', 'Z']).headD ' '] := by
  constructor <;> decide

/-- Prefix test used to model `indexOf`/`includes`. -/
def isPre : JStr → JStr → Bool
  | [], _ => true
  | _ :: _, [] => false
  | c :: cs, d :: ds => c = d && isPre cs ds

/-- JS `hay.indexOf(needle)`, as an option (the source only compares the
result with found/not-found and reads the position on success). -/
def firstIdx (needle : JStr) : JStr → Option ℕ
  | [] => if isPre needle [] then some 0 else none
  | c :: rest =>
    if isPre needle (c :: rest) then some 0
    else (firstIdx needle rest).map (fun i => i + 1)

/-- The subsequence (skip-character) scan of `fuzzySearch`: march through the
name, advancing in the term on each character match; on completing the term
return how many name characters were consumed, else `none`.  (An empty term
never sets `fuzzyMatched` in the source, hence `none`; that case is
unreachable because empty terms are filtered and are substring matches.) -/
def subseqScan : JStr → JStr → ℕ → Option ℕ
  | _, [], _ => none
  | [], _ :: _, _ => none
  | tc :: trest, nc :: nrest, consumed =>
    if tc = nc then
      if trest = [] then some (consumed + 1)
      else subseqScan trest nrest (consumed + 1)
    else subseqScan (tc :: trest) nrest (consumed + 1)

/-- The four additive contributions of an exact substring match: +100 for
equalling the whole name, +50 for starting at position 0 or after a comma or
space, relative-coverage `(term.length / name.length) * 25`, and position
bonus `max(0, 25 - position)`. -/
def exactScore (term nameLower : JStr) (position : ℕ) : ℚ :=
  (if nameLower = term then 100 else 0) +
  (if position = 0 ∨ nameLower.get? (position - 1) = some ',' ∨
      nameLower.get? (position - 1) = some ' ' then 50 else 0) +
  ((term.length : ℚ) / (nameLower.length : ℚ)) * 25 +
  max 0 (25 - (position : ℚ))

/-- Per-term score of the claim: the exact-substring contributions when the
term occurs in the name, else `20 * (term.length / charactersScanned)` when
it matches as an in-order subsequence, else no match. -/
def termScoreSpec (term nameLower : JStr) : Option ℚ :=
  match firstIdx term nameLower with
  | some position => some (exactScore term nameLower position)
  | none =>
    match subseqScan term nameLower 0 with
    | some charactersScanned =>
      some (20 * ((term.length : ℚ) / (charactersScanned : ℚ)))
    | none => none

/-- The `for (const term of searchTerms)` loop of `fuzzySearch`: accumulate
the score term by term, breaking with `matchesAllTerms = false` on the first
term that neither substring- nor subsequence-matches. -/
def scoreLoop (nameLower : JStr) : List JStr → ℚ → ℚ × Bool
  | [], score => (score, true)
  | term :: rest, score =>
    match firstIdx term nameLower with
    | some position =>
      scoreLoop nameLower rest (score + exactScore term nameLower position)
    | none =>
      match subseqScan term nameLower 0 with
      | some charactersScanned =>
        scoreLoop nameLower rest
          (score + 20 * ((term.length : ℚ) / (charactersScanned : ℚ)))
      | none => (score, false)

/-- `FuzzySearchResult` interface: spice data plus relevance score. -/
structure FuzzySearchResult where
  name : JStr
  category : Option JStr
  score : ℚ
deriving DecidableEq

/-- `SpiceLogic.fuzzySearch`: lower-case and whitespace-split the query,
score every candidate, keep positive scores, sort by descending score
(JS `sort` is stable; a stable descending sort is modelled by insertion
sort with the `≥`-on-score order) and truncate to `limit`. -/
def fuzzySearch (query : JStr) (limit : ℕ) (s : SpiceState) :
    List FuzzySearchResult :=
  let searchTerms := splitWs (query.map downChar)
  if searchTerms = [] then []
  else
    let results := s.spices.map (fun item =>
      let nameLower := item.name.map downChar
      let r := scoreLoop nameLower searchTerms 0
      { name := item.name, category := item.category
        score := if r.2 then r.1 else -1 })
    ((results.filter (fun item => 0 < item.score)).insertionSort
      (fun a b => b.score ≤ a.score)).take limit

theorem scoreLoop_spec (nameLower : JStr) :
    ∀ (terms : List JStr) (acc : ℚ),
      ((scoreLoop nameLower terms acc).2 = true ↔
        ∀ t ∈ terms, (termScoreSpec t nameLower).isSome = true) ∧
      ((∀ t ∈ terms, (termScoreSpec t nameLower).isSome = true) →
        (scoreLoop nameLower terms acc).1 =
          acc + (terms.map (fun t => (termScoreSpec t nameLower).getD 0)).sum) := by
  intro terms
  induction terms with
  | nil =>
    intro acc
    constructor
    · simp [scoreLoop]
    · intro _
      simp [scoreLoop]
  | cons term rest ih =>
    intro acc
    rcases hf : firstIdx term nameLower with _ | position
    · rcases hs : subseqScan term nameLower 0 with _ | consumed
      · have hnone : termScoreSpec term nameLower = none := by
          unfold termScoreSpec
          rw [hf, hs]
        constructor
        · show (scoreLoop nameLower (term :: rest) acc).2 = true ↔ _
          unfold scoreLoop
          rw [hf, hs]
          simp only [Bool.false_eq_true, false_iff]
          intro hall
          have := hall term (List.mem_cons_self term rest)
          rw [hnone] at this
          simp at this
        · intro hall
          have := hall term (List.mem_cons_self term rest)
          rw [hnone] at this
          simp at this
      · have hsome : termScoreSpec term nameLower =
            some (20 * ((term.length : ℚ) / (consumed : ℚ))) := by
          unfold termScoreSpec
          rw [hf, hs]
        constructor
        · show (scoreLoop nameLower (term :: rest) acc).2 = true ↔ _
          unfold scoreLoop
          rw [hf, hs]
          rw [(ih _).1]
          constructor
          · intro hall t ht
            rcases List.mem_cons.mp ht with ht | ht
            · rw [ht, hsome]; rfl
            · exact hall t ht
          · intro hall t ht
            exact hall t (List.mem_cons_of_mem _ ht)
        · intro hall
          show (scoreLoop nameLower (term :: rest) acc).1 = _
          unfold scoreLoop
          rw [hf, hs]
          rw [(ih _).2 (fun t ht => hall t (List.mem_cons_of_mem _ ht))]
          rw [List.map_cons, List.sum_cons, hsome]
          simp only [Option.getD_some]
          ring
    · have hsome : termScoreSpec term nameLower =
          some (exactScore term nameLower position) := by
        unfold termScoreSpec
        rw [hf]
      constructor
      · show (scoreLoop nameLower (term :: rest) acc).2 = true ↔ _
        unfold scoreLoop
        rw [hf]
        rw [(ih _).1]
        constructor
        · intro hall t ht
          rcases List.mem_cons.mp ht with ht | ht
          · rw [ht, hsome]; rfl
          · exact hall t ht
        · intro hall t ht
          exact hall t (List.mem_cons_of_mem _ ht)
      · intro hall
        show (scoreLoop nameLower (term :: rest) acc).1 = _
        unfold scoreLoop
        rw [hf]
        rw [(ih _).2 (fun t ht => hall t (List.mem_cons_of_mem _ ht))]
        rw [List.map_cons, List.sum_cons, hsome]
        simp only [Option.getD_some]
        ring

/-- Claim C7: every candidate returned by `fuzzySearch` matched all query
terms, and its score is exactly the sum over the lower-cased
whitespace-split terms of the claimed per-term formula (exact-substring
contributions, or the subsequence-quality score); a candidate failing any
term is never returned. -/
theorem fuzzySearch_score (query : JStr) (limit : ℕ) (s : SpiceState)
    (r : FuzzySearchResult) (h : r ∈ fuzzySearch query limit s) :
    (∀ t ∈ splitWs (query.map downChar),
      (termScoreSpec t (r.name.map downChar)).isSome = true) ∧
    r.score = ((splitWs (query.map downChar)).map
      (fun t => (termScoreSpec t (r.name.map downChar)).getD 0)).sum := by
  unfold fuzzySearch at h
  by_cases hterms : splitWs (query.map downChar) = []
  · rw [if_pos hterms] at h
    simp at h
  · rw [if_neg hterms] at h
    have h1 := List.mem_of_mem_take h
    have h2 := (List.perm_insertionSort
      (fun a b : FuzzySearchResult => b.score ≤ a.score) _).mem_iff.mp h1
    obtain ⟨h3, hpos⟩ := List.mem_filter.mp h2
    obtain ⟨item, hitem, heq⟩ := List.mem_map.mp h3
    have hpos' : (0 : ℚ) < r.score := by simpa using hpos
    rcases hok : (scoreLoop (item.name.map downChar)
        (splitWs (query.map downChar)) 0).2 with _ | _
    · exfalso
      rw [← heq] at hpos'
      simp only [hok] at hpos'
      norm_num at hpos'
    · have hname : r.name = item.name := by rw [← heq]
      have hscore : r.score = (scoreLoop (item.name.map downChar)
          (splitWs (query.map downChar)) 0).1 := by
        rw [← heq]
        simp only [hok]
        rfl
      have hspec := scoreLoop_spec (item.name.map downChar)
        (splitWs (query.map downChar)) 0
      have hall := hspec.1.mp hok
      rw [hname]
      refine ⟨hall, ?_⟩
      rw [hscore, hspec.2 hall, zero_add]

unseal Rat.add Rat.sub Rat.mul Rat.inv in
theorem fuzzySearch_score_witness :
    ((FuzzySearchResult.mk ['a'] none 200) ∈
      fuzzySearch ['a'] 10 (freshState [{ name := ['a'] }])) ∧
    ((∀ t ∈ splitWs (List.map downChar ['a']),
      (termScoreSpec t ((FuzzySearchResult.mk ['a'] none 200).name.map
        downChar)).isSome = true) ∧
    (FuzzySearchResult.mk ['a'] none 200).score =
      ((splitWs (List.map downChar ['a'])).map
        (fun t => (termScoreSpec t ((FuzzySearchResult.mk ['a'] none
          200).name.map downChar)).getD 0)).sum) :=
  ⟨by decide, fuzzySearch_score ['a'] 10 (freshState [{ name := ['a'] }])
    (FuzzySearchResult.mk ['a'] none 200) (by decide)⟩

/-- Method-call form of `getEffectiveLetterCounts`: the body assigns no field
of the class, so the state after the call is the state before it. -/
def getEffectiveLetterCountsM (s : SpiceState) : LetterCounts × SpiceState :=
  (getEffectiveLetterCounts s, s)

/-- Method-call form of `calculateOptimalDistribution` (result, state after
the call): the method only reads state, through
`getEffectiveLetterCounts`. -/
def calculateOptimalDistributionM (s : SpiceState) :
    List (List JStr) × SpiceState :=
  let r := getEffectiveLetterCountsM s
  (calculateOptimalDistributionWithParams r.1 (sumValues r.1) r.2.numShelves,
    r.2)

/-- Method-call form of `calculateItemsPerShelf` (result, state after the
call): the method mutates only its local `shelfInfo` array. -/
def calculateItemsPerShelfM (s : SpiceState) : List ShelfInfo × SpiceState :=
  (calculateItemsPerShelf s, s)

/-- Method-call form of `fuzzySearch` (result, state after the call): the
method maps over fresh copies of `this.spices` entries and sorts the mapped
array, never the field itself. -/
def fuzzySearchM (query : JStr) (limit : ℕ) (s : SpiceState) :
    List FuzzySearchResult × SpiceState :=
  (fuzzySearch query limit s, s)

/-- Claim C8: calling the distribution computations or `fuzzySearch` twice in
succession with identical inputs yields identical outputs (ordering
included), and neither call mutates the state it reads: the state after two
calls is the initial state. -/
theorem distribution_and_search_idempotent (s : SpiceState) (query : JStr)
    (limit : ℕ) :
    ((calculateItemsPerShelfM ((calculateItemsPerShelfM s).2)).1 =
        (calculateItemsPerShelfM s).1 ∧
      (calculateItemsPerShelfM ((calculateItemsPerShelfM s).2)).2 = s) ∧
    ((calculateOptimalDistributionM ((calculateOptimalDistributionM s).2)).1 =
        (calculateOptimalDistributionM s).1 ∧
      (calculateOptimalDistributionM ((calculateOptimalDistributionM s).2)).2 =
        s) ∧
    ((fuzzySearchM query limit ((fuzzySearchM query limit s).2)).1 =
        (fuzzySearchM query limit s).1 ∧
      (fuzzySearchM query limit ((fuzzySearchM query limit s).2)).2 = s) :=
  ⟨⟨rfl, rfl⟩, ⟨rfl, rfl⟩, ⟨rfl, rfl⟩⟩
